import Mathlib

/-!
Verification of the batch-download core of the Playlistify repository.

The embedding follows src/playlist_downloader.py and src/music_downloader.py:

* `download_video_worker` (playlist_downloader.py, lines 367-424): the per-job
  retry loop run by each worker of the parallel downloader.  One call to
  `subprocess.run` either returns a `CompletedProcess` with a return code,
  raises `subprocess.TimeoutExpired`, or raises some other `Exception`; the
  outcome of attempt number `k` (1-based, as in `range(1, max_retries + 1)`)
  is modelled by an oracle `att : Nat → AttemptResult`.  The worker returns a
  result dict; we additionally record how many attempts were executed and the
  list of `time.sleep` delays, which are the observables the claims speak of.

* `download_playlist_parallel` (playlist_downloader.py, lines 426-499): the
  bounded parallel batch runner.  `as_completed` yields every submitted future
  exactly once, in an arbitrary completion order; that order is passed
  explicitly as `completionOrder`, constrained to be a permutation of the
  submitted list in the theorems.  The loop body tallies `successful` and
  appends failures to `failed`; the per-job lines it prints appear in
  completion order and are modelled by the `outcomes` list.  A
  `KeyboardInterrupt` delivered after `k` loop iterations is modelled by
  `interruptAfter = some k`: the source has no try/except around the loop, so
  the exception propagates and no report is produced (`Except.error ()`).

* the video-range filter and index assignment (lines 447-459), including
  Python's slice semantics for possibly negative bounds and `str.zfill`.

* the filename auto-tagging of `batch_process_folder`
  (music_downloader.py, lines 490-525): a faithful backtracking regex engine
  (Python `re` semantics: `re.match` anchors at the start, `.` does not match
  a newline, `$` matches at the end or before one final newline, lazy
  quantifiers prefer the shortest extension and greedy ones the longest, and
  the returned match is the first one in backtracking order) together with
  the three patterns tried by the code, in order.
-/

/-! ## Per-attempt outcome of the worker (one `subprocess.run` call) -/

/-- What one `subprocess.run(cmd, ..., timeout=3600)` call can do, as the
`try`/`except` of `download_video_worker` distinguishes: return a completed
process with a return code, raise `subprocess.TimeoutExpired`, or raise some
other `Exception` (carrying its message `str(e)`). -/
inductive AttemptResult where
  | completed (returncode : Int)
  | timeoutExpired
  | raised (msg : List Char)
deriving DecidableEq

/-- Whether an attempt outcome is the success case of the worker loop
(`result.returncode == 0`). Every other outcome takes a retry branch. -/
def isSuccessAttempt : AttemptResult → Bool
  | .completed rc => decide (rc = 0)
  | .timeoutExpired => false
  | .raised _ => false

/-- The dict returned by `download_video_worker`: keys `success`, `title`,
`index`, and (on the failure returns that carry one) `error`.  No attempt
count is part of the returned dict. -/
structure WorkerResult where
  success : Bool
  title : List Char
  index : List Char
  error : Option (List Char)
deriving DecidableEq

/-- A worker execution: the returned dict plus the execution observables the
claims are about — how many attempts (`subprocess.run` calls) were made and
the list of `time.sleep` delays (seconds) between consecutive attempts. -/
structure WorkerRun where
  result : WorkerResult
  attempts : Nat
  sleeps : List Nat
deriving DecidableEq

/-- The body of `for attempt in range(1, max_retries + 1)` of
`download_video_worker` (lines 398-424), as a recursion over the list of
remaining attempt numbers.  Each iteration performs one attempt; on failure,
if `attempt < max_retries` it sleeps 3 seconds and continues, otherwise it
returns the failure dict with the corresponding error message.  The final
`return` after the loop (line 424, reachable only with `max_retries = 0`)
returns a failure dict with no error key. -/
def workerAttempts (att : Nat → AttemptResult) (title index : List Char)
    (max_retries : Nat) : List Nat → WorkerRun
  | [] =>
    { result := { success := false, title := title, index := index, error := none },
      attempts := 0, sleeps := [] }
  | attempt :: rest =>
    let retryOr : WorkerResult → WorkerRun := fun r =>
      if attempt < max_retries then
        let tail := workerAttempts att title index max_retries rest
        { result := tail.result, attempts := tail.attempts + 1, sleeps := 3 :: tail.sleeps }
      else
        { result := r, attempts := 1, sleeps := [] }
    match att attempt with
    | .completed rc =>
      if rc = 0 then
        { result := { success := true, title := title, index := index, error := none },
          attempts := 1, sleeps := [] }
      else
        retryOr { success := false, title := title, index := index,
                  error := some ("Max retries exceeded".data) }
    | .timeoutExpired =>
      retryOr { success := false, title := title, index := index,
                error := some ("Timeout".data) }
    | .raised msg =>
      retryOr { success := false, title := title, index := index, error := some msg }

/-- `download_video_worker(video_info, output_dir, quality, max_retries)`:
runs the attempt loop over `range(1, max_retries + 1)`.  The source default
is `max_retries=3`; callers in the file never override it. -/
def download_video_worker (att : Nat → AttemptResult) (title index : List Char)
    (max_retries : Nat) : WorkerRun :=
  workerAttempts att title index max_retries (List.range' 1 max_retries)

example :
    (download_video_worker (fun _ => AttemptResult.timeoutExpired) [] [] 3).attempts = 3 := by
  decide

example :
    (download_video_worker (fun _ => AttemptResult.timeoutExpired) [] [] 3).sleeps = [3, 3] := by
  decide

example :
    (download_video_worker (fun k => if k = 2 then AttemptResult.completed 0
      else AttemptResult.completed 1) [] [] 3).attempts = 2 := by
  decide

/-! ## The parallel batch runner -/

/-- A playlist entry as built by `get_playlist_info` plus the `index` key
added before submission (lines 457-459).  `url`, `id` and `duration` play no
role in the runner's control flow beyond being carried along, so only the
fields the report shows are kept. -/
structure Video where
  title : List Char
  index : List Char
deriving DecidableEq

/-- One submitted future: `executor.submit(download_video_worker, video,
output_dir, quality)` with the default `max_retries=3`. -/
def runWorker (att : Video → Nat → AttemptResult) (v : Video) : WorkerRun :=
  download_video_worker (att v) v.title v.index 3

/-- What `download_playlist_parallel` accumulates while draining
`as_completed` (lines 476-487): the per-job result lines in completion order,
the `successful` counter and the `failed` list. -/
structure RunReport where
  outcomes : List WorkerResult
  successful : Nat
  failed : List WorkerResult
deriving DecidableEq

/-- The completion loop's tally: for each completed result in order,
`successful += 1` on success, else `failed.append(result)`. -/
def processResults (results : List WorkerResult) : Nat × List WorkerResult :=
  results.foldl
    (fun acc r => if r.success then (acc.1 + 1, acc.2) else (acc.1, acc.2 ++ [r]))
    (0, [])

/-- `download_playlist_parallel` (lines 426-499) after the playlist has been
fetched and filtered: all jobs are submitted, `as_completed` yields every
future exactly once in an arbitrary completion order (`completionOrder`, a
permutation of `videos` in the theorems), and the loop records each result.
`interruptAfter = some k` models a `KeyboardInterrupt` delivered after `k`
iterations of the completion loop: the source wraps nothing in the function
in a handler, so the exception propagates out of the `with` block and neither
the summary nor any further per-job line is produced (`Except.error ()`).
With no interrupt the function always reaches `return True` with the full
report. -/
def download_playlist_parallel (videos completionOrder : List Video)
    (att : Video → Nat → AttemptResult) (interruptAfter : Option Nat) :
    Except Unit RunReport :=
  let results := completionOrder.map (fun v => (runWorker att v).result)
  let tally := processResults results
  match interruptAfter with
  | some k =>
    if k < results.length then Except.error ()
    else Except.ok { outcomes := results, successful := tally.1, failed := tally.2 }
  | none => Except.ok { outcomes := results, successful := tally.1, failed := tally.2 }

/-! ## Video-range filter and index assignment (lines 447-459) -/

/-- Normalisation of one slice bound, as Python `list[a:b]` does for step 1:
a negative bound counts from the end (clamped at 0), a nonnegative one is
clamped at the length. -/
def pySliceIdx (len : Nat) (i : Int) : Nat :=
  if i < 0 then ((len : Int) + i).toNat else min i.toNat len

/-- Python `l[a:b]` (step 1). -/
def pySlice {α : Type} (l : List α) (a b : Int) : List α :=
  (l.take (pySliceIdx l.length b)).drop (pySliceIdx l.length a)

/-- Python `str.zfill(width)`: left-pad with zeros up to `width`, keeping a
leading sign in front of the padding. -/
def pyZfill (s : List Char) (width : Nat) : List Char :=
  if width ≤ s.length then s
  else
    match s with
    | [] => List.replicate width '0'
    | c :: rest =>
      if c = '-' ∨ c = '+' then c :: (List.replicate (width - (rest.length + 1)) '0' ++ rest)
      else List.replicate (width - s.length) '0' ++ s

/-- Python `str(n)` for an int `n` (Lean's `Int` gives the same digits and
minus sign). -/
def pyIntStr (n : Int) : List Char := (toString n).data

/-- Lines 448-453: `start = max(1, start); end = min(len(videos), end);
videos = videos[start-1:end]` — applied only when a range was requested. -/
def applyVideoRange {α : Type} (videos : List α) (video_range : Option (Int × Int)) :
    List α :=
  match video_range with
  | none => videos
  | some se => pySlice videos (max 1 se.1 - 1) (min (videos.length : Int) se.2)

/-- Lines 457-459: `for i, video in enumerate(videos, 1): video['index'] =
str(i + (video_range[0] - 1 if video_range else 0)).zfill(3)`.  Note the
shift uses the original, unclamped `video_range[0]`. -/
def assignIndices {α : Type} (filtered : List α) (video_range : Option (Int × Int)) :
    List (α × List Char) :=
  ((List.range filtered.length).zip filtered).map
    (fun p =>
      (p.2, pyZfill (pyIntStr ((p.1 : Int) + 1 +
        (match video_range with
         | some se => se.1 - 1
         | none => 0))) 3))

/-- The range-selection stage of `download_playlist_parallel`: filter, then
index assignment. -/
def selectAndIndex {α : Type} (videos : List α) (video_range : Option (Int × Int)) :
    List (α × List Char) :=
  assignIndices (applyVideoRange videos video_range) video_range

/-- The playlist viewed as its 1-based original positions. -/
def playlistPositions (N : Nat) : List Nat := (List.range N).map (fun j => j + 1)

/-- The selection stage run on a playlist of `N` entries with a requested
range `(start, stop)`: each selected original position paired with the index
string the code assigns to it. -/
def indexedSelection (N : Nat) (start stop : Int) : List (Nat × List Char) :=
  selectAndIndex (playlistPositions N) (some (start, stop))

/-- The selection claim C9 predicts: original positions `max(1,start)`
through `min(N,stop)` inclusive (empty when the former exceeds the latter). -/
def claimedSelection (N : Nat) (start stop : Int) : List Nat :=
  List.range' (max 1 start).toNat ((min (N : Int) stop).toNat + 1 - (max 1 start).toNat)

/-- Claim C9 at one input: the code selects exactly the claimed positions and
gives each the three-digit zero-padded string of its original position. -/
abbrev claimC9At (N : Nat) (start stop : Int) : Prop :=
  indexedSelection N start stop =
    (claimedSelection N start stop).map (fun p => (p, pyZfill (pyIntStr (Int.ofNat p)) 3))

example : claimC9At 5 2 4 := by decide
example : ¬ claimC9At 3 0 2 := by decide
example : ¬ claimC9At 3 1 (-1) := by decide
example : indexedSelection 3 0 2 = [(1, "000".data), (2, "001".data)] := by decide
example : indexedSelection 3 1 (-1) = [(1, "001".data), (2, "002".data)] := by decide

/-! ## Worker retry-loop lemmas -/

/-- If every attempt from `a` through `max_retries` fails, the loop over the
remaining attempt numbers `a, ..., max_retries` performs all of them, sleeps
3 seconds between consecutive ones, and ends unsuccessful. -/
theorem workerAttempts_all_fail (att : Nat → AttemptResult) (t i : List Char)
    (mr : Nat) :
    ∀ n a, 1 ≤ n → a + n = mr + 1 →
      (∀ k, a ≤ k → k ≤ mr → isSuccessAttempt (att k) = false) →
      (workerAttempts att t i mr (List.range' a n)).attempts = n ∧
      (workerAttempts att t i mr (List.range' a n)).sleeps = List.replicate (n - 1) 3 ∧
      (workerAttempts att t i mr (List.range' a n)).result.success = false := by
  intro n
  induction n with
  | zero => intro a h1 _ _; omega
  | succ n ih =>
    intro a h1 h2 h3
    have ha : a ≤ mr := by omega
    have hfa : isSuccessAttempt (att a) = false := h3 a le_rfl ha
    rw [List.range'_succ]
    by_cases hn : n = 0
    · subst hn
      have hge : ¬ a < mr := by omega
      cases hatt : att a with
      | completed rc =>
        have hrc : ¬ rc = 0 := by simpa [isSuccessAttempt, hatt] using hfa
        simp [workerAttempts, hatt, hrc, hge]
      | timeoutExpired => simp [workerAttempts, hatt, hge]
      | raised msg => simp [workerAttempts, hatt, hge]
    · have hlt : a < mr := by omega
      have ih2 := ih (a + 1) (by omega) (by omega) (fun k hk1 hk2 => h3 k (by omega) hk2)
      obtain ⟨m, rfl⟩ : ∃ m, n = m + 1 := ⟨n - 1, by omega⟩
      cases hatt : att a with
      | completed rc =>
        have hrc : ¬ rc = 0 := by simpa [isSuccessAttempt, hatt] using hfa
        simpa [workerAttempts, hatt, hrc, hlt, List.replicate_succ] using ih2
      | timeoutExpired =>
        simpa [workerAttempts, hatt, hlt, List.replicate_succ] using ih2
      | raised msg =>
        simpa [workerAttempts, hatt, hlt, List.replicate_succ] using ih2

/-- If the attempts `a, ..., k-1` fail and attempt `k` succeeds
(`a ≤ k ≤ max_retries`), the loop over the remaining attempt numbers returns
the success dict after `k + 1 - a` attempts with a sleep between each pair. -/
theorem workerAttempts_first_success (att : Nat → AttemptResult) (t i : List Char)
    (mr : Nat) :
    ∀ n a k, a + n = mr + 1 → a ≤ k → k ≤ mr →
      (∀ j, a ≤ j → j < k → isSuccessAttempt (att j) = false) →
      isSuccessAttempt (att k) = true →
      workerAttempts att t i mr (List.range' a n) =
        { result := { success := true, title := t, index := i, error := none },
          attempts := k + 1 - a, sleeps := List.replicate (k - a) 3 } := by
  intro n
  induction n with
  | zero => intro a k h1 h2 h3 _ _; omega
  | succ n ih =>
    intro a k h1 h2 h3 h4 h5
    rw [List.range'_succ]
    rcases eq_or_lt_of_le h2 with rfl | hak
    · obtain ⟨rc, hatt, rfl⟩ : ∃ rc, att a = .completed rc ∧ rc = 0 := by
        cases hatt : att a with
        | completed rc =>
          refine ⟨rc, rfl, ?_⟩
          simpa [isSuccessAttempt, hatt] using h5
        | timeoutExpired => simp [isSuccessAttempt, hatt] at h5
        | raised msg => simp [isSuccessAttempt, hatt] at h5
      have hone : a + 1 - a = 1 := by omega
      have hzero : a - a = 0 := by omega
      simp [workerAttempts, hatt, hone, hzero]
    · have hfa : isSuccessAttempt (att a) = false := h4 a le_rfl hak
      have hlt : a < mr := by omega
      have ih2 := ih (a + 1) k (by omega) (by omega) h3
        (fun j hj1 hj2 => h4 j (by omega) hj2) h5
      have hatts : k + 1 - (a + 1) + 1 = k + 1 - a := by omega
      have hsl : k - a = (k - (a + 1)) + 1 := by omega
      cases hatt : att a with
      | completed rc =>
        have hrc : ¬ rc = 0 := by simpa [isSuccessAttempt, hatt] using hfa
        simp [workerAttempts, hatt, hrc, hlt, ih2, hatts, hsl, List.replicate_succ]
        omega
      | timeoutExpired =>
        simp [workerAttempts, hatt, hlt, ih2, hatts, hsl, List.replicate_succ]
        omega
      | raised msg =>
        simp [workerAttempts, hatt, hlt, ih2, hatts, hsl, List.replicate_succ]
        omega

/-- A nonempty attempt list performs at least one attempt. -/
theorem workerAttempts_attempts_pos (att : Nat → AttemptResult) (t i : List Char)
    (mr : Nat) (lst : List Nat) (h : lst ≠ []) :
    1 ≤ (workerAttempts att t i mr lst).attempts := by
  cases lst with
  | nil => simp at h
  | cons a rest =>
    cases hatt : att a with
    | completed rc =>
      by_cases hrc : rc = 0
      · simp [workerAttempts, hatt, hrc]
      · by_cases hlt : a < mr <;> simp [workerAttempts, hatt, hrc, hlt]
    | timeoutExpired => by_cases hlt : a < mr <;> simp [workerAttempts, hatt, hlt]
    | raised msg => by_cases hlt : a < mr <;> simp [workerAttempts, hatt, hlt]

/-! ## Claims C2, C3, C4: the retry policy -/

/-- Claim C2: a job whose attempts always fail (every failure in this code is
retried the same way, i.e. treated as transient) is attempted exactly
`max_retries` times — the source default is 3 — with a fixed 3-second sleep
between consecutive attempts, and its result dict records the failure
(`success = False`), which the completion loop then files under `failed`. -/
theorem claimC2_transient_failure_exhausts_retries (att : Nat → AttemptResult)
    (t i : List Char) (mr : Nat) (hmr : 1 ≤ mr)
    (hfail : ∀ k, 1 ≤ k → k ≤ mr → isSuccessAttempt (att k) = false) :
    (download_video_worker att t i mr).attempts = mr ∧
    (download_video_worker att t i mr).sleeps = List.replicate (mr - 1) 3 ∧
    (download_video_worker att t i mr).result.success = false :=
  workerAttempts_all_fail att t i mr mr 1 hmr (by omega) hfail

/-- Witness for C2 at the default `max_retries = 3` with every attempt timing
out: 3 attempts, two 3-second sleeps, recorded unsuccessful. -/
theorem claimC2_witness :
    (download_video_worker (fun _ => AttemptResult.timeoutExpired)
        "Video A".data "001".data 3).attempts = 3 ∧
    (download_video_worker (fun _ => AttemptResult.timeoutExpired)
        "Video A".data "001".data 3).sleeps = List.replicate (3 - 1) 3 ∧
    (download_video_worker (fun _ => AttemptResult.timeoutExpired)
        "Video A".data "001".data 3).result.success = false :=
  claimC2_transient_failure_exhausts_retries (fun _ => AttemptResult.timeoutExpired)
    "Video A".data "001".data 3 (by decide) (fun _ _ _ => rfl)

/-- A per-attempt oracle for a permanently broken job: `yt-dlp` exits with a
nonzero return code on every attempt (what a malformed source identifier
produces).  The code cannot distinguish this from a transient failure. -/
def attPermanentFailure : Nat → AttemptResult := fun _ => AttemptResult.completed 1

/-- Counterexample to claim C3: a job whose very first attempt fails in the
way the spec calls permanent (nonzero exit for a malformed identifier) is
*not* recorded as failed after 1 attempt — the loop of
`download_video_worker` (lines 398-424) takes the same retry branch for every
failure kind, so 3 attempts are performed. -/
theorem claimC3_counterexample :
    (download_video_worker attPermanentFailure "Video A".data "001".data 3).attempts = 3 ∧
    decide ((download_video_worker attPermanentFailure "Video A".data "001".data 3).attempts
      = 1) = false ∧
    (download_video_worker attPermanentFailure
        "Video A".data "001".data 3).result.success = false := by
  decide

/-- Claim C3 as amended: no failure short-circuits the retry budget.  If the
first attempt fails — whatever the failure kind, including the spec's
permanent ones — the worker goes on to a second attempt (when the budget
allows), and only after all `max_retries` attempts fail is the job recorded
as failed. -/
theorem claimC3_amended_no_failure_short_circuits (att : Nat → AttemptResult)
    (t i : List Char) (mr : Nat) (hmr : 2 ≤ mr)
    (h1 : isSuccessAttempt (att 1) = false) :
    2 ≤ (download_video_worker att t i mr).attempts ∧
    ((∀ k, 1 ≤ k → k ≤ mr → isSuccessAttempt (att k) = false) →
      (download_video_worker att t i mr).attempts = mr ∧
      (download_video_worker att t i mr).result.success = false) := by
  constructor
  · have hsplit : List.range' 1 mr = 1 :: List.range' 2 (mr - 1) := by
      obtain ⟨m, rfl⟩ : ∃ m, mr = m + 1 := ⟨mr - 1, by omega⟩
      simp [List.range'_succ]
    rw [download_video_worker, hsplit]
    have hne : List.range' 2 (mr - 1) ≠ [] := by
      simp only [ne_eq, List.range'_eq_nil]
      omega
    have hpos := workerAttempts_attempts_pos att t i mr _ hne
    have hlt : (1 : Nat) < mr := by omega
    cases hatt : att 1 with
    | completed rc =>
      have hrc : ¬ rc = 0 := by simpa [isSuccessAttempt, hatt] using h1
      simp only [workerAttempts, hatt, hrc, hlt, if_true, if_false, if_neg hrc, if_pos hlt]
      omega
    | timeoutExpired =>
      simp only [workerAttempts, hatt, if_pos hlt]
      omega
    | raised msg =>
      simp only [workerAttempts, hatt, if_pos hlt]
      omega
  · intro hfail
    have h := workerAttempts_all_fail att t i mr mr 1 (by omega) (by omega) hfail
    exact ⟨h.1, h.2.2⟩

/-- Witness for the amended C3: first attempt times out, second succeeds —
two attempts are performed (no 1-attempt short circuit). -/
theorem claimC3_amended_witness :
    2 ≤ (download_video_worker
      (fun k => if k = 1 then AttemptResult.timeoutExpired else AttemptResult.completed 0)
      "Video A".data "001".data 3).attempts ∧
    ((∀ k, 1 ≤ k → k ≤ 3 → isSuccessAttempt
        ((fun k => if k = 1 then AttemptResult.timeoutExpired else AttemptResult.completed 0) k)
        = false) →
      (download_video_worker
        (fun k => if k = 1 then AttemptResult.timeoutExpired else AttemptResult.completed 0)
        "Video A".data "001".data 3).attempts = 3 ∧
      (download_video_worker
        (fun k => if k = 1 then AttemptResult.timeoutExpired else AttemptResult.completed 0)
        "Video A".data "001".data 3).result.success = false) :=
  claimC3_amended_no_failure_short_circuits
    (fun k => if k = 1 then AttemptResult.timeoutExpired else AttemptResult.completed 0)
    "Video A".data "001".data 3 (by decide) (by decide)

/-- Claim C4 as amended: a job whose attempts fail before attempt `k` and
succeed at attempt `k ≤ max_retries` is recorded as successful; the worker
consumed exactly `k` attempts with a 3-second sleep before each retry — but
the returned dict (`success`/`title`/`index`) does not carry the attempt
count. -/
theorem claimC4_amended_success_on_attempt_k (att : Nat → AttemptResult)
    (t i : List Char) (mr k : Nat) (h1 : 1 ≤ k) (h2 : k ≤ mr)
    (hbefore : ∀ j, 1 ≤ j → j < k → isSuccessAttempt (att j) = false)
    (hk : isSuccessAttempt (att k) = true) :
    (download_video_worker att t i mr).result.success = true ∧
    (download_video_worker att t i mr).attempts = k ∧
    (download_video_worker att t i mr).sleeps = List.replicate (k - 1) 3 ∧
    (download_video_worker att t i mr).result.error = none := by
  have h := workerAttempts_first_success att t i mr mr 1 k (by omega) h1 h2 hbefore hk
  rw [download_video_worker, h]
  refine ⟨rfl, by simp, rfl, rfl⟩

/-- Witness for the amended C4: failure then success at attempt 2 of 3. -/
theorem claimC4_amended_witness :
    (download_video_worker
      (fun k => if k = 1 then AttemptResult.completed 1 else AttemptResult.completed 0)
      "Video A".data "001".data 3).result.success = true ∧
    (download_video_worker
      (fun k => if k = 1 then AttemptResult.completed 1 else AttemptResult.completed 0)
      "Video A".data "001".data 3).attempts = 2 ∧
    (download_video_worker
      (fun k => if k = 1 then AttemptResult.completed 1 else AttemptResult.completed 0)
      "Video A".data "001".data 3).sleeps = List.replicate (2 - 1) 3 ∧
    (download_video_worker
      (fun k => if k = 1 then AttemptResult.completed 1 else AttemptResult.completed 0)
      "Video A".data "001".data 3).result.error = none :=
  claimC4_amended_success_on_attempt_k
    (fun k => if k = 1 then AttemptResult.completed 1 else AttemptResult.completed 0)
    "Video A".data "001".data 3 2 (by decide) (by decide)
    (by decide) (by decide)

/-- Counterexample to claim C4's "the recorded result carries attempt count
equal to k": a job succeeding on attempt 1 and a job succeeding on attempt 2
return *identical* result dicts, so no attempt count is recoverable from the
recorded result. -/
theorem claimC4_counterexample :
    (download_video_worker (fun _ => AttemptResult.completed 0)
        "Video A".data "001".data 3).result =
      (download_video_worker
        (fun k => if k = 1 then AttemptResult.timeoutExpired else AttemptResult.completed 0)
        "Video A".data "001".data 3).result ∧
    (download_video_worker (fun _ => AttemptResult.completed 0)
        "Video A".data "001".data 3).attempts = 1 ∧
    (download_video_worker
        (fun k => if k = 1 then AttemptResult.timeoutExpired else AttemptResult.completed 0)
        "Video A".data "001".data 3).attempts = 2 := by
  decide

/-! ## Runner lemmas -/

/-- The completion-loop fold, with the accumulator generalised. -/
theorem processResults_foldl (rs : List WorkerResult) :
    ∀ n acc, rs.foldl
        (fun acc r => if r.success then (acc.1 + 1, acc.2) else (acc.1, acc.2 ++ [r]))
        (n, acc)
      = (n + rs.countP (fun r => r.success), acc ++ rs.filter (fun r => !r.success)) := by
  induction rs with
  | nil => intro n acc; simp
  | cons r rs ih =>
    intro n acc
    by_cases h : r.success = true
    · simp only [List.foldl_cons, h, if_true, ih, List.countP_cons, List.filter_cons]
      simp [h]
      omega
    · simp only [List.foldl_cons, h, if_false, ih, List.countP_cons, List.filter_cons]
      simp [h]

/-- The tally of the completion loop: `successful` counts the successes and
`failed` collects the failures in completion order. -/
theorem processResults_eq (rs : List WorkerResult) :
    processResults rs =
      (rs.countP (fun r => r.success), rs.filter (fun r => !r.success)) := by
  simpa [processResults] using processResults_foldl rs 0 []

/-- Without an interrupt, `download_playlist_parallel` reaches `return True`
with the full report. -/
theorem download_playlist_parallel_ok (videos order : List Video)
    (att : Video → Nat → AttemptResult) :
    download_playlist_parallel videos order att none =
      Except.ok
        { outcomes := order.map (fun v => (runWorker att v).result),
          successful := (order.map (fun v => (runWorker att v).result)).countP
            (fun x => x.success),
          failed := (order.map (fun v => (runWorker att v).result)).filter
            (fun x => !x.success) } := by
  simp [download_playlist_parallel, processResults_eq]

/-- Any report the runner produces is the completion-ordered one. -/
theorem download_playlist_parallel_ok_shape (videos order : List Video)
    (att : Video → Nat → AttemptResult) (ir : Option Nat) (r : RunReport)
    (hok : download_playlist_parallel videos order att ir = Except.ok r) :
    r = { outcomes := order.map (fun v => (runWorker att v).result),
          successful := (order.map (fun v => (runWorker att v).result)).countP
            (fun x => x.success),
          failed := (order.map (fun v => (runWorker att v).result)).filter
            (fun x => !x.success) } := by
  cases ir with
  | none =>
    rw [download_playlist_parallel_ok] at hok
    exact (Except.ok.inj hok).symm
  | some k =>
    by_cases hk : k < order.length
    · simp [download_playlist_parallel, hk] at hok
    · simp only [download_playlist_parallel, List.length_map, if_neg hk,
        processResults_eq] at hok
      exact (Except.ok.inj hok).symm

/-- Successes plus failures exhaust the recorded outcomes. -/
theorem countP_success_add_filter_not (l : List WorkerResult) :
    l.countP (fun x => x.success) + (l.filter (fun x => !x.success)).length = l.length := by
  induction l with
  | nil => rfl
  | cons r rs ih =>
    by_cases h : r.success = true <;>
      simp [List.countP_cons, List.filter_cons, h] <;> omega

/-! ## Claims C1, C5, C6, C7: the report -/

/-- First demo job of the batch scenarios. -/
def videoA : Video := { title := "Video A".data, index := "001".data }

/-- Second demo job of the batch scenarios. -/
def videoB : Video := { title := "Video B".data, index := "002".data }

/-- A per-job oracle whose every attempt succeeds at once. -/
def attAllSucceed : Video → Nat → AttemptResult := fun _ _ => AttemptResult.completed 0

/-- Counterexample to claim C1's ordering part: with jobs [A, B] and
completion order [B, A], the per-job results the loop records (lines 476-487)
come out as [B's, A's] — completion order, not the original ordinal order —
and the two differ. -/
theorem claimC1_counterexample :
    (download_playlist_parallel [videoA, videoB] [videoB, videoA]
        attAllSucceed none).toOption.map (fun r => r.outcomes) =
      some [(runWorker attAllSucceed videoB).result,
            (runWorker attAllSucceed videoA).result] ∧
    decide ([(runWorker attAllSucceed videoB).result,
             (runWorker attAllSucceed videoA).result] =
            [(runWorker attAllSucceed videoA).result,
             (runWorker attAllSucceed videoB).result]) = false := by
  decide

/-- Claim C1 as amended: for every completion order (any permutation of the
submitted jobs) the run yields a report with exactly one result per input
job — the recorded outcomes are a permutation of the per-job results, `N` in
total — but they are ordered by completion, not by original ordinal
position. -/
theorem claimC1_amended_one_result_per_job (videos order : List Video)
    (att : Video → Nat → AttemptResult) (h : order.Perm videos) :
    ∃ r, download_playlist_parallel videos order att none = Except.ok r ∧
      r.outcomes = order.map (fun v => (runWorker att v).result) ∧
      r.outcomes.Perm (videos.map (fun v => (runWorker att v).result)) ∧
      r.outcomes.length = videos.length := by
  refine ⟨_, download_playlist_parallel_ok videos order att, rfl, h.map _, ?_⟩
  simp [h.length_eq]

/-- Witness for the amended C1 on the two-job batch with reversed completion
order. -/
theorem claimC1_amended_witness :
    ∃ r, download_playlist_parallel [videoA, videoB] [videoB, videoA]
        attAllSucceed none = Except.ok r ∧
      r.outcomes = [videoB, videoA].map (fun v => (runWorker attAllSucceed v).result) ∧
      r.outcomes.Perm ([videoA, videoB].map (fun v => (runWorker attAllSucceed v).result)) ∧
      r.outcomes.length = [videoA, videoB].length :=
  claimC1_amended_one_result_per_job [videoA, videoB] [videoB, videoA]
    attAllSucceed (by decide)

/-- Claim C5: in any report the runner hands back, the aggregate counts are
consistent — `successful` plus the number of failures equals the number of
submitted jobs (and the number of recorded outcomes).  The code records no
Cancelled outcome (no such state exists in it), so the claim's cancelled
count is identically zero. -/
theorem claimC5_aggregate_counts_consistent (videos order : List Video)
    (att : Video → Nat → AttemptResult) (ir : Option Nat) (r : RunReport)
    (hperm : order.Perm videos)
    (hok : download_playlist_parallel videos order att ir = Except.ok r) :
    r.successful + r.failed.length = videos.length ∧
    r.successful + r.failed.length = r.outcomes.length := by
  have hr := download_playlist_parallel_ok_shape videos order att ir r hok
  subst hr
  have hc := countP_success_add_filter_not (order.map (fun v => (runWorker att v).result))
  constructor
  · simpa [hperm.length_eq] using hc
  · simpa using hc

/-- The report of the one-job success batch, for the C5 witness. -/
def reportA : RunReport :=
  { outcomes := [(runWorker attAllSucceed videoA).result],
    successful := 1, failed := [] }

/-- Witness for C5 on a one-job batch. -/
theorem claimC5_witness :
    reportA.successful + reportA.failed.length = [videoA].length ∧
    reportA.successful + reportA.failed.length = reportA.outcomes.length :=
  claimC5_aggregate_counts_consistent [videoA] [videoA] attAllSucceed none reportA
    (List.Perm.refl _) rfl

/-- Claim C6: a failing job never makes the runner raise: with no interrupt
the run always returns a full report (the worker catches
`subprocess.TimeoutExpired` and every other `Exception`, lines 411-422, and
returns a dict), the failing job's result is recorded in `failed`, and every
other job is still processed — one outcome per submitted job. -/
theorem claimC6_failure_recorded_batch_continues (videos order : List Video)
    (att : Video → Nat → AttemptResult) (h : order.Perm videos) :
    ∃ r, download_playlist_parallel videos order att none = Except.ok r ∧
      r.outcomes.Perm (videos.map (fun v => (runWorker att v).result)) ∧
      (∀ res, res ∈ r.outcomes → res.success = false → res ∈ r.failed) ∧
      r.outcomes.length = videos.length := by
  refine ⟨_, download_playlist_parallel_ok videos order att, h.map _, ?_, ?_⟩
  · intro res hmem hfail
    simp [List.mem_filter, hmem, hfail]
  · simp [h.length_eq]

/-- Witness for C6: a batch of two jobs where A's attempts all raise and B's
all time out still yields a complete report. -/
theorem claimC6_witness :
    ∃ r, download_playlist_parallel [videoA, videoB] [videoB, videoA]
        (fun v _ => if v = videoA then AttemptResult.raised "boom".data
          else AttemptResult.timeoutExpired) none = Except.ok r ∧
      r.outcomes.Perm ([videoA, videoB].map (fun v => (runWorker
        (fun v _ => if v = videoA then AttemptResult.raised "boom".data
          else AttemptResult.timeoutExpired) v).result)) ∧
      (∀ res, res ∈ r.outcomes → res.success = false → res ∈ r.failed) ∧
      r.outcomes.length = [videoA, videoB].length :=
  claimC6_failure_recorded_batch_continues [videoA, videoB] [videoB, videoA]
    (fun v _ => if v = videoA then AttemptResult.raised "boom".data
      else AttemptResult.timeoutExpired) (by decide)

/-- The five-job batch of the spec's cancellation scenario. -/
def vids5 : List Video :=
  [videoA, videoB,
   { title := "Video C".data, index := "003".data },
   { title := "Video D".data, index := "004".data },
   { title := "Video E".data, index := "005".data }]

/-- Counterexample to claim C7: a `KeyboardInterrupt` after 2 of 5 completions
leaves `download_playlist_parallel` with no report at all — the source has no
handler around the `as_completed` loop (lines 468-499), so the claim's
five-entry report with `Cancelled` markings does not exist. -/
theorem claimC7_counterexample :
    vids5.length = 5 ∧
    (download_playlist_parallel vids5 vids5 attAllSucceed (some 2)).toOption = none := by
  decide

/-- Claim C7 as amended: if cancellation arrives while completions are still
being processed (after `k < N` loop iterations), the runner produces no
report: the interrupt propagates to the caller and no job — started or not —
is recorded, there being no Cancelled outcome in the code. -/
theorem claimC7_amended_interrupt_yields_no_report (videos order : List Video)
    (att : Video → Nat → AttemptResult) (k : Nat) (hk : k < order.length) :
    download_playlist_parallel videos order att (some k) = Except.error () := by
  simp [download_playlist_parallel, hk]

/-- Witness for the amended C7: interrupt after 2 of 5 completions. -/
theorem claimC7_amended_witness :
    download_playlist_parallel vids5 vids5 attAllSucceed (some 2) = Except.error () :=
  claimC7_amended_interrupt_yields_no_report vids5 vids5 attAllSucceed 2 (by decide)

/-! ## Claim C9: range selection and index assignment -/

/-- Taking a prefix of an arithmetic 1-step range. -/
theorem take_range'_eq : ∀ (m s n : Nat), (List.range' s n).take m = List.range' s (min m n) := by
  intro m
  induction m with
  | zero => simp
  | succ m ih =>
    intro s n
    cases n with
    | zero => simp
    | succ n =>
      rw [List.range'_succ, List.take_succ_cons, ih]
      have hmin : min (m + 1) (n + 1) = min m n + 1 := by omega
      rw [hmin, List.range'_succ]

/-- Dropping a prefix of an arithmetic 1-step range. -/
theorem drop_range'_eq : ∀ (m s n : Nat), (List.range' s n).drop m = List.range' (s + m) (n - m) := by
  intro m
  induction m with
  | zero => simp
  | succ m ih =>
    intro s n
    cases n with
    | zero => simp
    | succ n =>
      rw [List.range'_succ, List.drop_succ_cons, ih]
      have h1 : s + 1 + m = s + (m + 1) := by omega
      have h2 : n - m = n + 1 - (m + 1) := by omega
      rw [h1, h2]

/-- Zipping two equally long 1-step ranges pairs each entry with its shifted
counterpart. -/
theorem zip_range'_range' : ∀ (m c s : Nat),
    (List.range' c m).zip (List.range' s m) =
      (List.range' c m).map (fun i => (i, i - c + s)) := by
  intro m
  induction m with
  | zero => simp
  | succ m ih =>
    intro c s
    rw [List.range'_succ c m 1, List.range'_succ s m 1, List.zip_cons_cons,
      ih (c + 1) (s + 1), List.map_cons]
    congr 1
    · have h : c - c + s = s := by omega
      rw [h]
    · refine List.map_congr_left (fun a ha => ?_)
      have hca : c + 1 ≤ a := (List.mem_range'_1.mp ha).1
      have h : a - (c + 1) + (s + 1) = a - c + s := by omega
      rw [h]

/-- The playlist positions are the 1-based range. -/
theorem playlistPositions_eq (N : Nat) : playlistPositions N = List.range' 1 N := by
  rw [playlistPositions, List.range'_eq_map_range]
  exact List.map_congr_left (fun a _ => by omega)

/-- Claim C9 as amended: for a requested range with `start ≥ 1` and
`stop ≥ 0`, the code selects exactly the original positions `max(1, start)`
through `min(N, stop)` (empty when the former exceeds the latter) and labels
each selected video with the zero-padded string of its original position.
(The restriction is forced: `start ≤ 0` shifts every index down by
`1 - start`, and a negative `stop` is interpreted by Python's slice as
counting from the end of the playlist, not as an empty selection.) -/
theorem claimC9_amended_selection_and_indices (N : Nat) (start stop : Int)
    (h1 : 1 ≤ start) (h2 : 0 ≤ stop) : claimC9At N start stop := by
  have hmax : max 1 start = start := by omega
  have ha : pySliceIdx N (max 1 start - 1) = min (start.toNat - 1) N := by
    rw [hmax, pySliceIdx, if_neg (by omega)]
    have : (start - 1).toNat = start.toNat - 1 := by omega
    rw [this]
  have hb : pySliceIdx N (min (N : Int) stop) = (min (N : Int) stop).toNat := by
    rw [pySliceIdx, if_neg (by omega)]
    omega
  have hbN : (min (N : Int) stop).toNat ≤ N := by omega
  have hfiltered : applyVideoRange (playlistPositions N) (some (start, stop)) =
      List.range' (1 + min (start.toNat - 1) N)
        ((min (N : Int) stop).toNat - min (start.toNat - 1) N) := by
    rw [applyVideoRange, pySlice, playlistPositions_eq, List.length_range', ha, hb,
      take_range'_eq, drop_range'_eq]
    have : min ((min (N : Int) stop).toNat) N = (min (N : Int) stop).toNat := by omega
    rw [this]
  rw [claimC9At, indexedSelection, selectAndIndex, hfiltered, assignIndices,
    List.length_range']
  rw [List.range_eq_range', zip_range'_range']
  rw [claimedSelection]
  have hs0 : ((start.toNat : Int)) = start := Int.toNat_of_nonneg (by omega)
  by_cases hcase : start.toNat - 1 ≤ N
  · have hmin1 : min (start.toNat - 1) N = start.toNat - 1 := by omega
    have hstart1 : 1 + (start.toNat - 1) = start.toNat := by omega
    have hlen : (min (N : Int) stop).toNat - (start.toNat - 1) =
        (min (N : Int) stop).toNat + 1 - (max 1 start).toNat := by
      rw [hmax]
      omega
    have hmax2 : (1 ⊔ start).toNat = start.toNat := by rw [hmax]
    rw [hmin1, hstart1, ← hlen, hmax2]
    apply List.ext_getElem
    · simp
    · intro i hi1 hi2
      simp only [List.getElem_map, List.getElem_range', Function.comp_apply, one_mul,
        Nat.zero_add, Nat.sub_zero, Prod.mk.injEq]
      refine ⟨by omega, ?_⟩
      have harg : ((i : Nat) : Int) + 1 + ((start, stop).1 - 1) = Int.ofNat (start.toNat + i) := by
        simp only [Int.ofNat_eq_coe]
        push_cast [hs0]
        ring
      rw [harg]
  · have hmin1 : min (start.toNat - 1) N = N := by omega
    have hempty1 : (min (N : Int) stop).toNat - N = 0 := by omega
    have hempty2 : (min (N : Int) stop).toNat + 1 - (max 1 start).toNat = 0 := by
      rw [hmax]
      omega
    rw [hmin1, hempty1, hempty2]
    simp

/-- Witness for the amended C9: positions 2..4 of a 5-video playlist get
index strings 002, 003, 004. -/
theorem claimC9_amended_witness : claimC9At 5 2 4 :=
  claimC9_amended_selection_and_indices 5 2 4 (by decide) (by decide)

/-- Counterexample to claim C9 as stated, at two concrete inputs: with
`start = 0` the selected positions 1 and 2 are labelled 000 and 001 instead
of 001 and 002 (the shift uses the unclamped `video_range[0]`, line 459);
with `stop = -1` the claim demands an empty selection but Python's slice
turns the clamped `end = -1` into `len - 1`, selecting positions 1 and 2. -/
theorem claimC9_counterexample :
    (¬ claimC9At 3 0 2) ∧ (¬ claimC9At 3 1 (-1)) ∧
    indexedSelection 3 0 2 = [(1, "000".data), (2, "001".data)] ∧
    indexedSelection 3 1 (-1) = [(1, "001".data), (2, "002".data)] ∧
    claimedSelection 3 1 (-1) = [] :=
  ⟨by decide, by decide, by decide, by decide, by decide⟩

/-! ## Claim C10: filename auto-tagging (music_downloader.py, lines 490-525)

A faithful engine for the three `re.match` patterns the code tries in order:

    patterns = [
        r'^(.+?)\s*[-–—]\s*(.+)$',
        r'^(.+?)\s*:\s*(.+)$',
        r'^(\d+)\s*[-.)]\s*(.+?)\s*[-–—]\s*(.+)$',  # Track - Artist - Title
    ]

`re.match` anchors at the start only; since every pattern ends in `$`, a
match spans the whole stem (or all but one final newline, which `$` also
accepts).  `.` matches any character except a newline; `\s` is the
whitespace class (its ASCII members — the stems at issue are filenames);
`\d` the digits.  A lazy quantifier prefers the shortest extension, a greedy
one the longest, and `re.match` returns the first complete match in
backtracking (depth-first) order.  The engine enumerates the candidate
remainders of every subexpression in exactly that order, so the head of the
enumeration is the match Python returns, together with its captured groups
in left-to-right order. -/

/-- The ASCII members of Python's `\s` class. -/
def isPySpace (c : Char) : Bool :=
  c == ' ' || c == '\t' || c == '\n' || c == '\r' || c == '\x0b' || c == '\x0c'

/-- Python's `\d` (ASCII digits). -/
def isPyDigit (c : Char) : Bool := '0' ≤ c && c ≤ '9'

/-- The dash class `[-–—]` of the patterns. -/
def isDashChar (c : Char) : Bool := c == '-' || c == '–' || c == '—'

/-- Python's `.` without `DOTALL`: any character but a newline. -/
def isDotChar (c : Char) : Bool := c != '\n'

/-- The separator class `[-.)]` of the third pattern. -/
def isSepChar (c : Char) : Bool := c == '-' || c == '.' || c == ')'

/-- Python `str.strip()` (whitespace from both ends). -/
def pyStrip (s : List Char) : List Char :=
  ((s.dropWhile isPySpace).reverse.dropWhile isPySpace).reverse

/-- The regex fragments the three patterns are built from: a one-character
class, a starred class (lazy or greedy), concatenation, a capturing group,
and the `$` anchor. -/
inductive Re where
  | pred (p : Char → Bool)
  | star (p : Char → Bool) (lazy : Bool)
  | cat (a b : Re)
  | group (a : Re)
  | eol
deriving Inhabited

/-- The remainders a lazy `p*` can leave, shortest consumption first. -/
def starSuffixesLazy (p : Char → Bool) : List Char → List (List Char)
  | [] => [[]]
  | c :: s => (c :: s) :: (if p c then starSuffixesLazy p s else [])

/-- The remainders a greedy `p*` can leave, longest consumption first. -/
def starSuffixesGreedy (p : Char → Bool) : List Char → List (List Char)
  | [] => [[]]
  | c :: s => (if p c then starSuffixesGreedy p s else []) ++ [c :: s]

/-- All complete matches of `r` against a prefix of `s`, in backtracking
priority order: each entry is the unconsumed remainder paired with the list
of captured groups in completion order (for these patterns, left-to-right
order).  A group's capture is the consumed segment, read off as the length
difference between entry and exit remainders. -/
def allRe : Re → List Char → List (List Char × List (List Char))
  | .pred _, [] => []
  | .pred p, c :: s => if p c then [(s, [])] else []
  | .star p lz, s =>
    (if lz then starSuffixesLazy p s else starSuffixesGreedy p s).map (fun v => (v, []))
  | .cat a b, s =>
    (allRe a s).flatMap (fun pr => (allRe b pr.1).map (fun qr => (qr.1, pr.2 ++ qr.2)))
  | .group a, s =>
    (allRe a s).map (fun pr => (pr.1, pr.2 ++ [s.take (s.length - pr.1.length)]))
  | .eol, s => if s = [] ∨ s = ['\n'] then [(s, [])] else []

/-- `re.match(pattern, s)`: the groups of the first match in backtracking
order, if any. -/
def reMatch (r : Re) (s : List Char) : Option (List (List Char)) :=
  ((allRe r s).map Prod.snd).head?

/-- `p+` (one, then a star of the same class and flavour). -/
def rePlus (p : Char → Bool) (lz : Bool) : Re := .cat (.pred p) (.star p lz)

/-- The part of pattern 1 after its first group: `\s*[-–—]\s*(.+)$`. -/
def pat1Rest : Re :=
  .cat (.star isPySpace false)
    (.cat (.pred isDashChar)
      (.cat (.star isPySpace false)
        (.cat (.group (rePlus isDotChar false)) .eol)))

/-- Pattern 1 of the list, `^(.+?)\s*[-–—]\s*(.+)$`. -/
def pat1 : Re := .cat (.group (rePlus isDotChar true)) pat1Rest

/-- Pattern 2 of the list, `^(.+?)\s*:\s*(.+)$`. -/
def pat2 : Re :=
  .cat (.group (rePlus isDotChar true))
    (.cat (.star isPySpace false)
      (.cat (.pred (fun c => c == ':'))
        (.cat (.star isPySpace false)
          (.cat (.group (rePlus isDotChar false)) .eol))))

/-- Pattern 3 of the list, `^(\d+)\s*[-.)]\s*(.+?)\s*[-–—]\s*(.+)$`. -/
def pat3 : Re :=
  .cat (.group (rePlus isPyDigit false))
    (.cat (.star isPySpace false)
      (.cat (.pred isSepChar)
        (.cat (.star isPySpace false)
          (.cat (.group (rePlus isDotChar true))
            (.cat (.star isPySpace false)
              (.cat (.pred isDashChar)
                (.cat (.star isPySpace false)
                  (.cat (.group (rePlus isDotChar false)) .eol))))))))

/-- The metadata dict `batch_process_folder` fills per file (line 497-503). -/
structure SongMetadata where
  title : List Char
  artist : List Char
  album : List Char
  year : List Char
  genre : List Char
deriving DecidableEq

/-- The `patterns` list of line 505-509, in source order. -/
def metadataPatterns : List Re := [pat1, pat2, pat3]

/-- Lines 514-520: two groups give `artist, title = groups`, three give
`artist, title = groups[1], groups[2]`, each `.strip()`ed. -/
def applyGroups (m : SongMetadata) (groups : List (List Char)) : SongMetadata :=
  if groups.length = 2 then
    { m with artist := pyStrip (groups.getD 0 []), title := pyStrip (groups.getD 1 []) }
  else if groups.length = 3 then
    { m with artist := pyStrip (groups.getD 1 []), title := pyStrip (groups.getD 2 []) }
  else m

/-- The `for pattern in patterns: ... break` loop (lines 511-521): the groups
of the first pattern that matches. -/
def firstPatternGroups : List Re → List Char → Option (List (List Char))
  | [], _ => none
  | r :: rs, s =>
    match reMatch r s with
    | some gs => some gs
    | none => firstPatternGroups rs s

/-- The auto-tagging of one filename stem (lines 493-521): metadata defaults
to title = stem, artist empty; the first matching pattern overrides both. -/
def autoTagMetadata (filename : List Char) : SongMetadata :=
  let m0 : SongMetadata :=
    { title := filename, artist := [], album := [], year := [], genre := [] }
  match firstPatternGroups metadataPatterns filename with
  | some gs => applyGroups m0 gs
  | none => m0

example : (autoTagMetadata "01 - Artist - Title".data).artist = "01".data := by decide
example : (autoTagMetadata "01 - Artist - Title".data).title = "Artist - Title".data := by decide
example : (autoTagMetadata "1.\nA - B".data).artist = "A".data := by decide
example : (autoTagMetadata "1.\nA - B".data).title = "B".data := by decide
example : reMatch pat1 "1.\nA - B".data = none := by decide
example : reMatch pat2 "1.\nA - B".data = none := by decide
example : (reMatch pat3 "1.\nA - B".data).isSome = true := by decide
example : (autoTagMetadata "-a-b".data).artist = "-a".data := by decide
example : (autoTagMetadata "01) Artist - Title".data).artist = "01) Artist".data := by decide
example : (autoTagMetadata "1. A - ".data).artist = "1. A".data := by decide
example : (autoTagMetadata "1. A - ".data).title = [] := by decide
example : (autoTagMetadata "Artist: Title".data).artist = "Artist".data := by decide

/-! ## Semantics of the regex fragments -/

/-- `Accepts r s v`: matching `r` against `s` can consume a prefix, leaving
exactly the remainder `v`.  (Which of the possible remainders the engine
reports first is a separate, priority-order question.) -/
inductive Accepts : Re → List Char → List Char → Prop where
  | pred {p : Char → Bool} {c : Char} {s : List Char} (h : p c = true) :
      Accepts (.pred p) (c :: s) s
  | star {p : Char → Bool} {lz : Bool} {s u v : List Char}
      (hs : s = u ++ v) (hu : ∀ c ∈ u, p c = true) : Accepts (.star p lz) s v
  | cat {a b : Re} {s m v : List Char} (ha : Accepts a s m) (hb : Accepts b m v) :
      Accepts (.cat a b) s v
  | group {a : Re} {s v : List Char} (h : Accepts a s v) : Accepts (.group a) s v
  | eol_nil : Accepts .eol [] []
  | eol_newline : Accepts .eol ['\n'] ['\n']

theorem accepts_pred_iff {p : Char → Bool} {s v : List Char} :
    Accepts (.pred p) s v ↔ ∃ c, s = c :: v ∧ p c = true := by
  constructor
  · rintro ⟨h⟩
    exact ⟨_, rfl, by assumption⟩
  · rintro ⟨c, rfl, hc⟩
    exact Accepts.pred hc

theorem accepts_star_iff {p : Char → Bool} {lz : Bool} {s v : List Char} :
    Accepts (.star p lz) s v ↔ ∃ u, s = u ++ v ∧ ∀ c ∈ u, p c = true := by
  constructor
  · rintro ⟨hs, hu⟩
    exact ⟨_, by assumption, by assumption⟩
  · rintro ⟨u, rfl, hu⟩
    exact Accepts.star rfl hu

theorem accepts_cat_iff {a b : Re} {s v : List Char} :
    Accepts (.cat a b) s v ↔ ∃ m, Accepts a s m ∧ Accepts b m v := by
  constructor
  · rintro ⟨ha, hb⟩
    exact ⟨_, by assumption, by assumption⟩
  · rintro ⟨m, ha, hb⟩
    exact Accepts.cat ha hb

theorem accepts_group_iff {a : Re} {s v : List Char} :
    Accepts (.group a) s v ↔ Accepts a s v := by
  constructor
  · rintro ⟨h⟩
    assumption
  · exact Accepts.group

theorem accepts_eol_iff {s v : List Char} :
    Accepts .eol s v ↔ v = s ∧ (s = [] ∨ s = ['\n']) := by
  constructor
  · rintro (_ | _ | _ | _ | _ | _)
    · exact ⟨rfl, Or.inl rfl⟩
    · exact ⟨rfl, Or.inr rfl⟩
  · rintro ⟨rfl, rfl | rfl⟩
    · exact Accepts.eol_nil
    · exact Accepts.eol_newline

theorem accepts_plus_iff {p : Char → Bool} {lz : Bool} {s v : List Char} :
    Accepts (rePlus p lz) s v ↔
      ∃ u, s = u ++ v ∧ u ≠ [] ∧ ∀ c ∈ u, p c = true := by
  rw [rePlus, accepts_cat_iff]
  constructor
  · rintro ⟨m, hpred, hstar⟩
    obtain ⟨c, rfl, hc⟩ := accepts_pred_iff.mp hpred
    obtain ⟨u, rfl, hu⟩ := accepts_star_iff.mp hstar
    refine ⟨c :: u, rfl, by simp, ?_⟩
    intro x hx
    rcases List.mem_cons.mp hx with rfl | hx
    · exact hc
    · exact hu x hx
  · rintro ⟨u, rfl, hne, hu⟩
    obtain ⟨c, u', rfl⟩ := List.exists_cons_of_ne_nil hne
    refine ⟨u' ++ v, accepts_pred_iff.mpr ⟨c, by simp, hu c (by simp)⟩, ?_⟩
    exact accepts_star_iff.mpr ⟨u', rfl, fun x hx => hu x (by simp [hx])⟩

/-! ## The enumeration is sound and complete for `Accepts` -/

theorem mem_starSuffixesLazy {p : Char → Bool} :
    ∀ {s v : List Char}, v ∈ starSuffixesLazy p s ↔
      ∃ u, s = u ++ v ∧ ∀ c ∈ u, p c = true := by
  intro s
  induction s with
  | nil =>
    intro v
    simp only [starSuffixesLazy, List.mem_singleton]
    constructor
    · rintro rfl
      exact ⟨[], rfl, by simp⟩
    · rintro ⟨u, hu, _⟩
      simpa using (List.append_eq_nil.mp hu.symm).2
  | cons c s ih =>
    intro v
    simp only [starSuffixesLazy, List.mem_cons]
    constructor
    · rintro (rfl | hv)
      · exact ⟨[], rfl, by simp⟩
      · by_cases hc : p c = true
        · rw [if_pos hc] at hv
          obtain ⟨u, rfl, hu⟩ := ih.mp hv
          refine ⟨c :: u, rfl, ?_⟩
          intro x hx
          rcases List.mem_cons.mp hx with rfl | hx
          · exact hc
          · exact hu x hx
        · rw [if_neg hc] at hv
          simp at hv
    · rintro ⟨u, hu, hall⟩
      cases u with
      | nil => exact Or.inl (by simpa using hu.symm)
      | cons c0 u' =>
        have hc0 : c0 = c := by simpa using congrArg (fun l => l.head?) hu.symm
        subst hc0
        have hs : s = u' ++ v := by simpa using hu
        refine Or.inr ?_
        rw [if_pos (hall c0 (by simp))]
        exact ih.mpr ⟨u', hs, fun x hx => hall x (by simp [hx])⟩

theorem mem_starSuffixesGreedy {p : Char → Bool} :
    ∀ {s v : List Char}, v ∈ starSuffixesGreedy p s ↔
      ∃ u, s = u ++ v ∧ ∀ c ∈ u, p c = true := by
  intro s
  induction s with
  | nil =>
    intro v
    simp only [starSuffixesGreedy, List.mem_singleton]
    constructor
    · rintro rfl
      exact ⟨[], rfl, by simp⟩
    · rintro ⟨u, hu, _⟩
      simpa using (List.append_eq_nil.mp hu.symm).2
  | cons c s ih =>
    intro v
    simp only [starSuffixesGreedy, List.mem_append, List.mem_singleton]
    constructor
    · rintro (hv | rfl)
      · by_cases hc : p c = true
        · rw [if_pos hc] at hv
          obtain ⟨u, rfl, hu⟩ := ih.mp hv
          refine ⟨c :: u, rfl, ?_⟩
          intro x hx
          rcases List.mem_cons.mp hx with rfl | hx
          · exact hc
          · exact hu x hx
        · rw [if_neg hc] at hv
          simp at hv
      · exact ⟨[], rfl, by simp⟩
    · rintro ⟨u, hu, hall⟩
      cases u with
      | nil => exact Or.inr (by simpa using hu.symm)
      | cons c0 u' =>
        have hc0 : c0 = c := by simpa using congrArg (fun l => l.head?) hu.symm
        subst hc0
        have hs : s = u' ++ v := by simpa using hu
        refine Or.inl ?_
        rw [if_pos (hall c0 (by simp))]
        exact ih.mpr ⟨u', hs, fun x hx => hall x (by simp [hx])⟩

/-- Every enumerated entry is a genuine match. -/
theorem accepts_of_mem_allRe :
    ∀ (r : Re) (s : List Char) (pr : List Char × List (List Char)),
      pr ∈ allRe r s → Accepts r s pr.1 := by
  intro r
  induction r with
  | pred p =>
    intro s pr hmem
    cases s with
    | nil => simp [allRe] at hmem
    | cons c t =>
      by_cases hc : p c = true
      · rw [allRe, if_pos hc] at hmem
        obtain rfl := List.mem_singleton.mp hmem
        exact Accepts.pred hc
      · rw [allRe, if_neg hc] at hmem
        simp at hmem
  | star p lz =>
    intro s pr hmem
    rw [allRe] at hmem
    obtain ⟨v, hv, rfl⟩ := List.mem_map.mp hmem
    cases lz with
    | true =>
      rw [if_pos rfl] at hv
      obtain ⟨u, rfl, hu⟩ := mem_starSuffixesLazy.mp hv
      exact Accepts.star rfl hu
    | false =>
      rw [if_neg (by simp)] at hv
      obtain ⟨u, rfl, hu⟩ := mem_starSuffixesGreedy.mp hv
      exact Accepts.star rfl hu
  | cat a b iha ihb =>
    intro s pr hmem
    rw [allRe] at hmem
    obtain ⟨qa, hqa, hqb⟩ := List.mem_flatMap.mp hmem
    obtain ⟨qb, hqb2, rfl⟩ := List.mem_map.mp hqb
    exact Accepts.cat (iha s qa hqa) (ihb qa.1 qb hqb2)
  | group a ih =>
    intro s pr hmem
    rw [allRe] at hmem
    obtain ⟨qa, hqa, rfl⟩ := List.mem_map.mp hmem
    exact Accepts.group (ih s qa hqa)
  | eol =>
    intro s pr hmem
    rw [allRe] at hmem
    by_cases h : s = [] ∨ s = ['\n']
    · rw [if_pos h] at hmem
      obtain rfl := List.mem_singleton.mp hmem
      rcases h with rfl | rfl
      · exact Accepts.eol_nil
      · exact Accepts.eol_newline
    · rw [if_neg h] at hmem
      simp at hmem

/-- Every match is enumerated (with some groups). -/
theorem exists_mem_allRe_of_accepts {r : Re} {s v : List Char} (h : Accepts r s v) :
    ∃ gs, (v, gs) ∈ allRe r s := by
  induction h with
  | pred hp => exact ⟨[], by rw [allRe, if_pos hp]; simp⟩
  | @star p lz s u v hs hu =>
    refine ⟨[], ?_⟩
    rw [allRe]
    refine List.mem_map.mpr ⟨v, ?_, rfl⟩
    cases lz with
    | true => rw [if_pos rfl]; exact mem_starSuffixesLazy.mpr ⟨u, hs, hu⟩
    | false => rw [if_neg (by simp)]; exact mem_starSuffixesGreedy.mpr ⟨u, hs, hu⟩
  | cat ha hb iha ihb =>
    obtain ⟨g1, h1⟩ := iha
    obtain ⟨g2, h2⟩ := ihb
    refine ⟨g1 ++ g2, ?_⟩
    rw [allRe]
    exact List.mem_flatMap.mpr ⟨_, h1, List.mem_map.mpr ⟨_, h2, rfl⟩⟩
  | @group a s v _ ih =>
    obtain ⟨g, hg⟩ := ih
    refine ⟨g ++ [s.take (s.length - v.length)], ?_⟩
    rw [allRe]
    exact List.mem_map.mpr ⟨_, hg, rfl⟩
  | eol_nil => exact ⟨[], by rw [allRe, if_pos (Or.inl rfl)]; simp⟩
  | eol_newline => exact ⟨[], by rw [allRe, if_pos (Or.inr rfl)]; simp⟩

/-- The enumeration is nonempty exactly when a match exists. -/
theorem allRe_ne_nil_iff {r : Re} {s : List Char} :
    allRe r s ≠ [] ↔ ∃ v, Accepts r s v := by
  constructor
  · intro h
    obtain ⟨pr, hpr⟩ := List.exists_mem_of_ne_nil _ h
    exact ⟨pr.1, accepts_of_mem_allRe r s pr hpr⟩
  · rintro ⟨v, hv⟩
    obtain ⟨gs, hgs⟩ := exists_mem_allRe_of_accepts hv
    exact List.ne_nil_of_mem hgs

/-- How many capturing groups a fragment declares. -/
def numGroups : Re → Nat
  | .pred _ => 0
  | .star _ _ => 0
  | .cat a b => numGroups a + numGroups b
  | .group a => numGroups a + 1
  | .eol => 0

/-- Every enumerated entry carries one capture per declared group. -/
theorem length_snd_of_mem_allRe :
    ∀ (r : Re) (s : List Char) (pr : List Char × List (List Char)),
      pr ∈ allRe r s → pr.2.length = numGroups r := by
  intro r
  induction r with
  | pred p =>
    intro s pr hmem
    cases s with
    | nil => simp [allRe] at hmem
    | cons c t =>
      by_cases hc : p c = true
      · rw [allRe, if_pos hc] at hmem
        obtain rfl := List.mem_singleton.mp hmem
        rfl
      · rw [allRe, if_neg hc] at hmem
        simp at hmem
  | star p lz =>
    intro s pr hmem
    rw [allRe] at hmem
    obtain ⟨v, _, rfl⟩ := List.mem_map.mp hmem
    rfl
  | cat a b iha ihb =>
    intro s pr hmem
    rw [allRe] at hmem
    obtain ⟨qa, hqa, hqb⟩ := List.mem_flatMap.mp hmem
    obtain ⟨qb, hqb2, rfl⟩ := List.mem_map.mp hqb
    simp [numGroups, iha s qa hqa, ihb qa.1 qb hqb2]
  | group a ih =>
    intro s pr hmem
    rw [allRe] at hmem
    obtain ⟨qa, hqa, rfl⟩ := List.mem_map.mp hmem
    simp [numGroups, ih s qa hqa]
  | eol =>
    intro s pr hmem
    rw [allRe] at hmem
    by_cases h : s = [] ∨ s = ['\n']
    · rw [if_pos h] at hmem
      obtain rfl := List.mem_singleton.mp hmem
      rfl
    · rw [if_neg h] at hmem
      simp at hmem

/-! ## The match pattern 1 reports first -/

theorem head?_append_of_ne_nil {α : Type} {l1 l2 : List α} (h : l1 ≠ []) :
    (l1 ++ l2).head? = l1.head? := by
  cases l1 with
  | nil => exact absurd rfl h
  | cons x t => rfl

theorem flatMap_congr_of_mem {α β : Type} {l : List α} {f g : α → List β}
    (h : ∀ a ∈ l, f a = g a) : l.flatMap f = l.flatMap g := by
  induction l with
  | nil => rfl
  | cons x t ih =>
    rw [List.flatMap_cons, List.flatMap_cons, h x (by simp),
      ih (fun a ha => h a (by simp [ha]))]

theorem length_le_of_mem_starSuffixesLazy {p : Char → Bool} {t v : List Char}
    (h : v ∈ starSuffixesLazy p t) : v.length ≤ t.length := by
  obtain ⟨u, rfl, _⟩ := mem_starSuffixesLazy.mp h
  simp

/-- Unfolding the engine on pattern 1: the lazy first group tries each
nonempty `.`-prefix in turn (shortest first, i.e. the remainders of the lazy
star over the tail), and pairs each with the matches of the pattern's
remainder. -/
theorem allRe_pat1_cons (a : Char) (s' : List Char) (ha : isDotChar a = true) :
    allRe pat1 (a :: s') =
      (starSuffixesLazy isDotChar s').flatMap
        (fun v => (allRe pat1Rest v).map
          (fun qr => (qr.1, (a :: s').take ((a :: s').length - v.length) :: qr.2))) := by
  conv_lhs => rw [pat1, allRe, allRe, rePlus, allRe, allRe]
  simp only [ha, if_true, allRe, List.flatMap_cons, List.flatMap_nil, List.append_nil,
    List.map_map, List.flatMap_map, List.nil_append, Function.comp, Prod.mk.eta,
    List.singleton_append]

/-- Prepend a character to the first captured group. -/
def consFirstGroup (a : Char) : List (List Char) → List (List Char)
  | [] => []
  | g :: gs => (a :: g) :: gs

/-- If the pattern remainder matches right after the first character, the
first (lazy) candidate wins: the reported first group is just that
character. -/
theorem reMatch_pat1_cons_of_rest_ne_nil (a : Char) (s' : List Char)
    (ha : isDotChar a = true) (h0 : allRe pat1Rest s' ≠ []) :
    ∃ qr, (allRe pat1Rest s').head? = some qr ∧
      reMatch pat1 (a :: s') = some ([a] :: qr.2) := by
  obtain ⟨qr, t0, ht0⟩ : ∃ qr t0, allRe pat1Rest s' = qr :: t0 := by
    cases hh : allRe pat1Rest s' with
    | nil => exact absurd hh h0
    | cons x t => exact ⟨x, t, rfl⟩
  refine ⟨qr, by rw [ht0]; rfl, ?_⟩
  rw [reMatch, allRe_pat1_cons a s' ha]
  cases s' with
  | nil =>
    have : allRe pat1Rest [] = [] := rfl
    rw [this] at ht0
    exact absurd ht0 (by simp)
  | cons b s'' =>
    rw [starSuffixesLazy, List.flatMap_cons, List.map_append,
      head?_append_of_ne_nil (by simp [ht0]), List.head?_map, List.head?_map, ht0]
    simp

/-- If the pattern remainder does not match right after the first character,
the reported match is the reported match of the tail with that character
prepended to its first group. -/
theorem reMatch_pat1_cons_of_rest_nil (a b : Char) (s'' : List Char)
    (ha : isDotChar a = true) (hb : isDotChar b = true)
    (h0 : allRe pat1Rest (b :: s'') = []) :
    reMatch pat1 (a :: b :: s'') =
      (reMatch pat1 (b :: s'')).map (consFirstGroup a) := by
  rw [reMatch, reMatch, allRe_pat1_cons a (b :: s'') ha, allRe_pat1_cons b s'' hb]
  rw [starSuffixesLazy, List.flatMap_cons, h0, List.map_nil, List.nil_append, if_pos hb]
  have key : ∀ v ∈ starSuffixesLazy isDotChar s'',
      (allRe pat1Rest v).map
          (fun qr => (qr.1, (a :: b :: s'').take ((a :: b :: s'').length - v.length) :: qr.2))
        = ((allRe pat1Rest v).map
            (fun qr => (qr.1, (b :: s'').take ((b :: s'').length - v.length) :: qr.2))).map
          (fun pr => (pr.1, consFirstGroup a pr.2)) := by
    intro v hv
    have hlen : v.length ≤ s''.length := length_le_of_mem_starSuffixesLazy hv
    rw [List.map_map]
    refine List.map_congr_left ?_
    intro qr _
    have htake : List.take (s''.length + 1 + 1 - v.length) (a :: b :: s'') =
        a :: List.take (s''.length + 1 - v.length) (b :: s'') := by
      rw [show s''.length + 1 + 1 - v.length = (s''.length + 1 - v.length) + 1 from by omega,
        List.take_succ_cons]
    simp [Function.comp, consFirstGroup, htake]
  rw [flatMap_congr_of_mem key]
  rw [← List.map_flatMap, List.map_map, List.head?_map, List.head?_map]
  cases ((starSuffixesLazy isDotChar s'').flatMap
      (fun v => (allRe pat1Rest v).map
        (fun qr => (qr.1, (b :: s'').take ((b :: s'').length - v.length) :: qr.2)))).head? with
  | none => rfl
  | some pr => rfl

/-- A run of whitespace starting at some position cannot reach a dash while
the text up to and including its first non-whitespace character contains no
dash. -/
theorem no_space_prefix_dash :
    ∀ (x u tail z : List Char) (c0 d : Char),
      u ++ d :: tail = x ++ c0 :: z →
      (∀ c ∈ u, isPySpace c = true) →
      (∀ c ∈ x, isDashChar c = false) →
      isPySpace c0 = false → isDashChar c0 = false →
      isDashChar d = true → False := by
  intro x
  induction x with
  | nil =>
    intro u tail z c0 d heq hu hx hc0 hc0d hd
    cases u with
    | nil =>
      obtain ⟨rfl, rfl⟩ : d = c0 ∧ tail = z := by simpa using heq
      rw [hd] at hc0d
      exact absurd hc0d (by simp)
    | cons b u' =>
      obtain ⟨rfl, -⟩ : b = c0 ∧ u' ++ d :: tail = z := by simpa using heq
      rw [hu b (by simp)] at hc0
      exact absurd hc0 (by simp)
  | cons a x ih =>
    intro u tail z c0 d heq hu hx hc0 hc0d hd
    cases u with
    | nil =>
      obtain ⟨rfl, -⟩ : d = a ∧ tail = x ++ c0 :: z := by simpa using heq
      rw [hx d (by simp)] at hd
      exact absurd hd (by simp)
    | cons b u' =>
      obtain ⟨rfl, heq'⟩ : b = a ∧ u' ++ d :: tail = x ++ c0 :: z := by simpa using heq
      exact ih u' tail z c0 d heq' (fun c hc => hu c (by simp [hc]))
        (fun c hc => hx c (by simp [hc])) hc0 hc0d hd

/-- Any match of the pattern-1 remainder starts with whitespace and then a
dash. -/
theorem pat1Rest_accepts_decomp {t v : List Char} (h : Accepts pat1Rest t v) :
    ∃ u d tail, t = u ++ d :: tail ∧ (∀ c ∈ u, isPySpace c = true) ∧
      isDashChar d = true := by
  rw [pat1Rest] at h
  obtain ⟨m1, hstar, h2⟩ := accepts_cat_iff.mp h
  obtain ⟨u, rfl, hu⟩ := accepts_star_iff.mp hstar
  obtain ⟨m2, hpred, -⟩ := accepts_cat_iff.mp h2
  obtain ⟨d, rfl, hd⟩ := accepts_pred_iff.mp hpred
  exact ⟨u, d, m2, rfl, hu, hd⟩

/-- The pattern-1 remainder cannot match where the text up to and including
its first non-whitespace character contains no dash. -/
theorem allRe_pat1Rest_eq_nil (x : List Char) (c0 : Char) (z : List Char)
    (hx : ∀ c ∈ x, isDashChar c = false)
    (hc0s : isPySpace c0 = false) (hc0d : isDashChar c0 = false) :
    allRe pat1Rest (x ++ c0 :: z) = [] := by
  by_contra h
  obtain ⟨v, hv⟩ := allRe_ne_nil_iff.mp h
  obtain ⟨u, d, tail, heq, hu, hd⟩ := pat1Rest_accepts_decomp hv
  exact no_space_prefix_dash x u tail z c0 d heq.symm hu hx hc0s hc0d hd

/-- The pattern-1 remainder does match whitespace, a dash, and a nonempty
newline-free tail. -/
theorem allRe_pat1Rest_ne_nil (W rest : List Char) (d : Char)
    (hW : ∀ c ∈ W, isPySpace c = true) (hd : isDashChar d = true)
    (hrne : rest ≠ []) (hrdot : ∀ c ∈ rest, isDotChar c = true) :
    allRe pat1Rest (W ++ d :: rest) ≠ [] := by
  rw [ne_eq, ← ne_eq, allRe_ne_nil_iff]
  refine ⟨[], ?_⟩
  rw [pat1Rest]
  refine accepts_cat_iff.mpr ⟨d :: rest, accepts_star_iff.mpr ⟨W, rfl, hW⟩, ?_⟩
  refine accepts_cat_iff.mpr ⟨rest, accepts_pred_iff.mpr ⟨d, rfl, hd⟩, ?_⟩
  refine accepts_cat_iff.mpr ⟨rest, accepts_star_iff.mpr ⟨[], rfl, by simp⟩, ?_⟩
  refine accepts_cat_iff.mpr
    ⟨[], accepts_group_iff.mpr ?_, accepts_eol_iff.mpr ⟨rfl, Or.inl rfl⟩⟩
  exact accepts_plus_iff.mpr ⟨rest, by simp, hrne, hrdot⟩

theorem mem_of_head?_eq_some {α : Type} {l : List α} {x : α} (h : l.head? = some x) :
    x ∈ l := by
  cases l with
  | nil => simp at h
  | cons y t =>
    obtain rfl : y = x := by simpa using h
    simp

/-- The first match pattern 1 reports on a stem of the shape
`Q ++ W ++ d :: rest` — where `Q` is dash-free with a non-blank last
character, `W` is blank, `d` is the first dash and something follows it —
captures exactly `Q` as its first group: the lazy first group stops at the
first dash, with the blank run before it absorbed by `\s*`. -/
theorem reMatch_pat1_first_dash :
    ∀ (Q W rest : List Char) (d : Char),
      Q ≠ [] →
      (∀ c ∈ Q, isDashChar c = false) →
      (∀ c ∈ Q, isDotChar c = true) →
      (∀ h : Q ≠ [], isPySpace (Q.getLast h) = false) →
      (∀ c ∈ W, isPySpace c = true) →
      isDashChar d = true →
      rest ≠ [] → (∀ c ∈ rest, isDotChar c = true) →
      ∃ g2, reMatch pat1 (Q ++ (W ++ d :: rest)) = some [Q, g2] := by
  intro Q
  induction Q with
  | nil => intro W rest d hne _ _ _ _ _ _ _; exact absurd rfl hne
  | cons a Q' ih =>
    intro W rest d hne hnodash hdot hlast hW hd hrne hrdot
    by_cases hQ' : Q' = []
    · subst hQ'
      have h0 : allRe pat1Rest (W ++ d :: rest) ≠ [] :=
        allRe_pat1Rest_ne_nil W rest d hW hd hrne hrdot
      obtain ⟨qr, hqr, hmatch⟩ :=
        reMatch_pat1_cons_of_rest_ne_nil a (W ++ d :: rest) (hdot a (by simp)) h0
      have hmem : qr ∈ allRe pat1Rest (W ++ d :: rest) := mem_of_head?_eq_some hqr
      have hlen : qr.2.length = 1 :=
        (length_snd_of_mem_allRe pat1Rest (W ++ d :: rest) qr hmem).trans rfl
      obtain ⟨g2, hg2⟩ := List.length_eq_one.mp hlen
      refine ⟨g2, ?_⟩
      show reMatch pat1 (a :: (W ++ d :: rest)) = some [[a], g2]
      rw [hmatch, hg2]
    · obtain ⟨b, Q'', rfl⟩ := List.exists_cons_of_ne_nil hQ'
      have hbQne : b :: Q'' ≠ [] := by simp
      have hc0s : isPySpace ((b :: Q'').getLast hbQne) = false := by
        have h := hlast (by simp)
        rwa [List.getLast_cons hbQne] at h
      have hc0mem : (b :: Q'').getLast hbQne ∈ a :: b :: Q'' :=
        List.mem_cons_of_mem a (List.getLast_mem hbQne)
      have hstep : allRe pat1Rest ((b :: Q'') ++ (W ++ d :: rest)) = [] := by
        have hsplit := List.dropLast_concat_getLast hbQne
        have heq : (b :: Q'') ++ (W ++ d :: rest)
            = (b :: Q'').dropLast ++ ((b :: Q'').getLast hbQne :: (W ++ d :: rest)) := by
          conv_lhs => rw [← hsplit]
          simp [List.append_assoc]
        rw [heq]
        refine allRe_pat1Rest_eq_nil _ _ _ ?_ hc0s (hnodash _ hc0mem)
        intro c hc
        exact hnodash c (List.mem_cons_of_mem a (List.dropLast_subset _ hc))
      have ihres := ih W rest d hbQne
        (fun c hc => hnodash c (by simp [hc]))
        (fun c hc => hdot c (by simp [hc]))
        (fun _ => hc0s) hW hd hrne hrdot
      obtain ⟨g2, hg2⟩ := ihres
      refine ⟨g2, ?_⟩
      have hstep2 := reMatch_pat1_cons_of_rest_nil a b (Q'' ++ (W ++ d :: rest))
        (hdot a (by simp)) (hdot b (by simp)) hstep
      show reMatch pat1 (a :: b :: (Q'' ++ (W ++ d :: rest))) = some [a :: b :: Q'', g2]
      rw [hstep2]
      have hg2s : reMatch pat1 (b :: (Q'' ++ (W ++ d :: rest))) = some [b :: Q'', g2] := hg2
      rw [hg2s]
      rfl

/-! ## From a pattern-3 match to the shape pattern 1 needs -/

/-- A digit is neither whitespace nor a dash. -/
theorem isPyDigit_not_space_dash {c : Char} (h : isPyDigit c = true) :
    isPySpace c = false ∧ isDashChar c = false := by
  simp only [isPyDigit, Bool.and_eq_true, decide_eq_true_eq] at h
  obtain ⟨h1, h2⟩ := h
  constructor
  · simp only [isPySpace, Bool.or_eq_false_iff, beq_eq_false_iff_ne, ne_eq]
    refine ⟨⟨⟨⟨⟨?_, ?_⟩, ?_⟩, ?_⟩, ?_⟩, ?_⟩ <;> rintro rfl <;> revert h1 h2 <;> decide
  · simp only [isDashChar, Bool.or_eq_false_iff, beq_eq_false_iff_ne, ne_eq]
    refine ⟨⟨?_, ?_⟩, ?_⟩ <;> rintro rfl <;> revert h1 h2 <;> decide

/-- Anything but a newline is matched by `.`. -/
theorem isDotChar_of_ne {c : Char} (h : ¬ c = '\n') : isDotChar c = true := by
  simpa [isDotChar, bne_iff_ne] using h

/-- What any pattern-3 match forces on the stem: it starts with a digit, and
it contains a dash with something after it. -/
theorem pat3_structure {s v : List Char} (h : Accepts pat3 s v) :
    (∃ c0 s1, s = c0 :: s1 ∧ isPyDigit c0 = true) ∧
    (∃ pre3 d3 tail3, s = pre3 ++ d3 :: tail3 ∧ isDashChar d3 = true ∧ tail3 ≠ []) := by
  rw [pat3] at h
  obtain ⟨m1, hg1, h⟩ := accepts_cat_iff.mp h
  obtain ⟨D, hsD, hDne, hDdig⟩ := accepts_plus_iff.mp (accepts_group_iff.mp hg1)
  obtain ⟨m2, hw1, h⟩ := accepts_cat_iff.mp h
  obtain ⟨W1, hm1, hW1⟩ := accepts_star_iff.mp hw1
  obtain ⟨m3, hsep, h⟩ := accepts_cat_iff.mp h
  obtain ⟨cs, hm2, hcs⟩ := accepts_pred_iff.mp hsep
  obtain ⟨m4, hw2, h⟩ := accepts_cat_iff.mp h
  obtain ⟨W2, hm3, hW2⟩ := accepts_star_iff.mp hw2
  obtain ⟨m5, hg2, h⟩ := accepts_cat_iff.mp h
  obtain ⟨M, hm4, hMne, hMdot⟩ := accepts_plus_iff.mp (accepts_group_iff.mp hg2)
  obtain ⟨m6, hw3, h⟩ := accepts_cat_iff.mp h
  obtain ⟨W3, hm5, hW3⟩ := accepts_star_iff.mp hw3
  obtain ⟨m7, hdash, h⟩ := accepts_cat_iff.mp h
  obtain ⟨d3, hm6, hd3⟩ := accepts_pred_iff.mp hdash
  obtain ⟨m8, hw4, h⟩ := accepts_cat_iff.mp h
  obtain ⟨W4, hm7, hW4⟩ := accepts_star_iff.mp hw4
  obtain ⟨m9, hg3, heol⟩ := accepts_cat_iff.mp h
  obtain ⟨T, hm8, hTne, hTdot⟩ := accepts_plus_iff.mp (accepts_group_iff.mp hg3)
  subst hsD hm1 hm2 hm3 hm4 hm5 hm6 hm7 hm8
  constructor
  · obtain ⟨c0, D', rfl⟩ := List.exists_cons_of_ne_nil hDne
    exact ⟨c0, D' ++ (W1 ++ (cs :: (W2 ++ (M ++ (W3 ++ (d3 :: (W4 ++ (T ++ m9)))))))),
      rfl, hDdig c0 (by simp)⟩
  · refine ⟨D ++ (W1 ++ (cs :: (W2 ++ (M ++ W3)))), d3, W4 ++ (T ++ m9), ?_, hd3, ?_⟩
    · simp [List.append_assoc]
    · intro hcon
      rw [List.append_eq_nil, List.append_eq_nil] at hcon
      exact hTne hcon.2.1

/-- Where a character of one kind first appears relative to another
decomposition: the marked character of the left decomposition falls before,
at, or after the marked character of the right one. -/
theorem append_singleton_cases {α : Type} :
    ∀ (u : List α) (a : α) (v x : List α) (b : α) (y : List α),
      u ++ a :: v = x ++ b :: y →
      (∃ w, x = u ++ a :: w) ∨ (u = x ∧ a = b ∧ v = y) ∨ (∃ w, u = x ++ b :: w) := by
  intro u
  induction u with
  | nil =>
    intro a v x b y heq
    cases x with
    | nil =>
      right; left
      simpa using heq
    | cons x0 x' =>
      left
      obtain ⟨rfl, rfl⟩ : a = x0 ∧ v = x' ++ b :: y := by simpa using heq
      exact ⟨x', rfl⟩
  | cons u0 u' ih =>
    intro a v x b y heq
    cases x with
    | nil =>
      right; right
      obtain ⟨rfl, rfl⟩ : u0 = b ∧ u' ++ a :: v = y := by simpa using heq
      exact ⟨u', rfl⟩
    | cons x0 x' =>
      obtain ⟨rfl, heq2⟩ : u0 = x0 ∧ u' ++ a :: v = x' ++ b :: y := by simpa using heq
      rcases ih a v x' b y heq2 with ⟨w, hw⟩ | ⟨h1, h2, h3⟩ | ⟨w, hw⟩
      · exact Or.inl ⟨w, by simp [hw]⟩
      · exact Or.inr (Or.inl ⟨by simp [h1], h2, h3⟩)
      · exact Or.inr (Or.inr ⟨w, by simp [hw]⟩)

theorem dropWhile_append_of_all {α : Type} {p : α → Bool} :
    ∀ (u v : List α), (∀ c ∈ u, p c = true) → (u ++ v).dropWhile p = v.dropWhile p := by
  intro u
  induction u with
  | nil => simp
  | cons c u' ih =>
    intro v hu
    rw [List.cons_append, List.dropWhile_cons_of_pos (hu c (by simp))]
    exact ih v (fun x hx => hu x (by simp [hx]))

/-- `str.strip()` ignores trailing whitespace. -/
theorem pyStrip_append_of_spaces :
    ∀ (x w : List Char), (∀ c ∈ w, isPySpace c = true) → pyStrip (x ++ w) = pyStrip x := by
  intro x
  induction x with
  | nil =>
    intro w hw
    rw [List.nil_append, pyStrip, pyStrip]
    rw [List.dropWhile_eq_nil_iff.mpr (fun c hc => hw c hc)]
    rfl
  | cons c x' ih =>
    intro w hw
    by_cases hc : isPySpace c = true
    · rw [List.cons_append, pyStrip, pyStrip, List.dropWhile_cons_of_pos hc,
        List.dropWhile_cons_of_pos hc]
      rw [← pyStrip, ← pyStrip]
      exact ih w hw
    · rw [List.cons_append, pyStrip, pyStrip,
        List.dropWhile_cons_of_neg (by simp [hc]), List.dropWhile_cons_of_neg (by simp [hc])]
      have hrev : (c :: (x' ++ w)).reverse = w.reverse ++ (c :: x').reverse := by
        simp
      rw [hrev, dropWhile_append_of_all w.reverse _
        (fun y hy => hw y (List.mem_reverse.mp hy))]

/-- The first entry left by `dropWhile` fails the test. -/
theorem dropWhile_head_false {α : Type} {p : α → Bool} :
    ∀ (l : List α) {a : α} {t : List α}, l.dropWhile p = a :: t → p a = false := by
  intro l
  induction l with
  | nil => intro a t h; simp at h
  | cons c l' ih =>
    intro a t h
    by_cases hc : p c = true
    · rw [List.dropWhile_cons_of_pos hc] at h
      exact ih h
    · rw [List.dropWhile_cons_of_neg (by simp [hc])] at h
      obtain ⟨rfl, -⟩ : c = a ∧ l' = t := by simpa using h
      simpa using hc

/-- Claim C10 as amended: for every newline-free filename stem that the
three-group pattern matches, the two-group dash pattern — tried first —
matches too and determines the metadata, and since its lazy first group
stops at the first dash, the detected artist is the stripped text before the
first dash separator (e.g. the track number for a stem like
`01 - Artist - Title`).  The newline restriction is forced: `.` matches no
newline, so a stem such as `1.\nA - B` is matched by the three-group pattern
alone. -/
theorem claimC10_amended_first_pattern_determines (s : List Char)
    (hnl : ∀ c ∈ s, ¬ c = '\n')
    (h3 : (reMatch pat3 s).isSome = true) :
    (reMatch pat1 s).isSome = true ∧
    firstPatternGroups metadataPatterns s = reMatch pat1 s ∧
    (autoTagMetadata s).artist =
      pyStrip (s.takeWhile (fun c => !(isDashChar c))) := by
  have hex : ∃ v, Accepts pat3 s v := by
    refine allRe_ne_nil_iff.mp ?_
    intro hcon
    rw [reMatch, hcon] at h3
    simp at h3
  obtain ⟨v, hacc⟩ := hex
  obtain ⟨⟨c0, s1, hs_eq, hc0dig⟩, ⟨pre3, d3, tail3, hs3, hd3, htail3⟩⟩ := pat3_structure hacc
  have hdots : ∀ c ∈ s, isDotChar c = true := fun c hc => isDotChar_of_ne (hnl c hc)
  have hc0facts := isPyDigit_not_space_dash hc0dig
  set nd : Char → Bool := fun c => !(isDashChar c) with hnd
  set P := s.takeWhile nd with hP
  have hPnodash : ∀ c ∈ P, isDashChar c = false := by
    intro c hc
    have hm := List.mem_takeWhile_imp hc
    simpa [hnd] using hm
  have hdropne : s.dropWhile nd ≠ [] := by
    rw [ne_eq, List.dropWhile_eq_nil_iff]
    push_neg
    refine ⟨d3, ?_, ?_⟩
    · rw [hs3]
      simp
    · simp [hnd, hd3]
  have hsplit : s = P ++ s.dropWhile nd := (List.takeWhile_append_dropWhile nd s).symm
  obtain ⟨d1, rest1, hdrop_eq⟩ := List.exists_cons_of_ne_nil hdropne
  have hd1 : isDashChar d1 = true := by
    have hh := dropWhile_head_false s hdrop_eq
    simpa [hnd] using hh
  have hs_decomp : s = P ++ d1 :: rest1 := by rw [hsplit, hdrop_eq]
  have hrest1ne : rest1 ≠ [] := by
    rcases append_singleton_cases P d1 rest1 pre3 d3 tail3 (by rw [← hs_decomp]; exact hs3)
      with ⟨w, hw⟩ | ⟨h1, h2, h3'⟩ | ⟨w, hw⟩
    · have heq2 : P ++ d1 :: rest1 = (P ++ d1 :: w) ++ d3 :: tail3 := by
        rw [← hw, ← hs_decomp]
        exact hs3
      have heq3 : rest1 = w ++ d3 :: tail3 := by
        rw [List.append_assoc, List.cons_append] at heq2
        have := List.append_cancel_left heq2
        simpa using this
      simp [heq3]
    · rw [h3']
      exact htail3
    · exfalso
      have hfalse : isDashChar d3 = false := hPnodash d3 (by rw [hw]; simp)
      rw [hd3] at hfalse
      exact absurd hfalse (by simp)
  set Q := (P.reverse.dropWhile isPySpace).reverse with hQ
  set W0 := (P.reverse.takeWhile isPySpace).reverse with hW0
  have hPQ : P = Q ++ W0 := by
    rw [hQ, hW0, ← List.reverse_append, List.takeWhile_append_dropWhile, List.reverse_reverse]
  have hW0sp : ∀ c ∈ W0, isPySpace c = true := by
    intro c hc
    rw [hW0] at hc
    exact List.mem_takeWhile_imp (List.mem_reverse.mp hc)
  have hPeq : P = c0 :: s1.takeWhile nd := by
    rw [hP, hs_eq, List.takeWhile_cons_of_pos (by simp [hnd, hc0facts.2])]
  have hQne : Q ≠ [] := by
    intro hcon
    have hPW : P = W0 := by rw [hPQ, hcon, List.nil_append]
    have hc0mem : c0 ∈ P := by rw [hPeq]; simp
    have hsp : isPySpace c0 = true := hW0sp c0 (hPW ▸ hc0mem)
    rw [hc0facts.1] at hsp
    exact absurd hsp (by simp)
  have hQlast : ∀ h : Q ≠ [], isPySpace (Q.getLast h) = false := by
    intro h
    have hQrev : Q.reverse = P.reverse.dropWhile isPySpace := by
      rw [hQ, List.reverse_reverse]
    obtain ⟨c, t, hct⟩ := List.exists_cons_of_ne_nil
      (show Q.reverse ≠ [] by simpa using h)
    have hc : isPySpace c = false :=
      dropWhile_head_false P.reverse (by rw [← hQrev]; exact hct)
    have hlast : Q.getLast h = c := by
      refine (List.getLast_eq_iff_getLast?_eq_some h).mpr ?_
      rw [List.getLast?_eq_head?_reverse, hct]
      rfl
    rw [hlast]
    exact hc
  have hQmemP : ∀ c ∈ Q, c ∈ P := by
    intro c hc
    rw [hPQ]
    exact List.mem_append_left _ hc
  have hQnodash : ∀ c ∈ Q, isDashChar c = false := fun c hc => hPnodash c (hQmemP c hc)
  have hQdot : ∀ c ∈ Q, isDotChar c = true := by
    intro c hc
    refine hdots c ?_
    rw [hsplit]
    exact List.mem_append_left _ (hQmemP c hc)
  have hrest1dot : ∀ c ∈ rest1, isDotChar c = true := by
    intro c hc
    refine hdots c ?_
    rw [hs_decomp]
    simp [hc]
  have hs_main : s = Q ++ (W0 ++ d1 :: rest1) := by
    rw [hs_decomp, hPQ, List.append_assoc]
  obtain ⟨g2, hg2⟩ := reMatch_pat1_first_dash Q W0 rest1 d1 hQne hQnodash hQdot hQlast
    hW0sp hd1 hrest1ne hrest1dot
  rw [← hs_main] at hg2
  have hfpg : firstPatternGroups metadataPatterns s = some [Q, g2] := by
    simp only [metadataPatterns, firstPatternGroups, hg2]
  refine ⟨by rw [hg2]; rfl, by rw [hfpg, hg2], ?_⟩
  rw [autoTagMetadata]
  rw [hfpg]
  show (applyGroups _ [Q, g2]).artist = pyStrip P
  rw [applyGroups]
  simp only [List.length_cons, List.length_nil, if_pos rfl]
  show pyStrip (List.getD [Q, g2] 0 []) = pyStrip P
  rw [hPQ]
  exact (pyStrip_append_of_spaces Q W0 hW0sp).symm

/-- Witness for the amended C10 on the stem `1. A - B`: pattern 3 matches,
pattern 1 matches first, and the detected artist is `1. A`, the stripped
text before the first dash. -/
theorem claimC10_amended_witness :
    (reMatch pat1 "1. A - B".data).isSome = true ∧
    firstPatternGroups metadataPatterns "1. A - B".data = reMatch pat1 "1. A - B".data ∧
    (autoTagMetadata "1. A - B".data).artist =
      pyStrip (("1. A - B".data).takeWhile (fun c => !(isDashChar c))) :=
  claimC10_amended_first_pattern_determines "1. A - B".data (by decide) (by decide)

/-- Counterexample to claim C10 as stated: on the stem `1.\nA - B` (a legal
filename stem on POSIX filesystems) the two-group patterns both fail —
`.` cannot cross the newline to reach the dash — while the three-group
pattern matches across it via `\s*`.  The third pattern therefore determines
the metadata, and the detected artist is `A`, not the text before the first
dash separator. -/
theorem claimC10_counterexample :
    reMatch pat1 "1.\nA - B".data = none ∧
    reMatch pat2 "1.\nA - B".data = none ∧
    (reMatch pat3 "1.\nA - B".data).isSome = true ∧
    firstPatternGroups metadataPatterns "1.\nA - B".data = reMatch pat3 "1.\nA - B".data ∧
    (autoTagMetadata "1.\nA - B".data).artist = "A".data ∧
    decide ((autoTagMetadata "1.\nA - B".data).artist =
      pyStrip (("1.\nA - B".data).takeWhile (fun c => !(isDashChar c)))) = false :=
  ⟨by decide, by decide, by decide, by decide, by decide, by decide⟩
